import Mathlib

/-!
# Verification of the shikiji multi-theme token pipeline

The repository ships only its type declarations (`packages/shikiji/src/types.ts`);
the implementations of the Style Metadata Codec, the Multi-Theme Compositor and
the HTML renderer are not part of the provided sources.  Following the spec,
those components are modelled here faithfully from the spec's own algorithm
descriptions, and the claimed properties are proved against these models.

Strings are modelled as `List Char` wherever positional reasoning is needed.
-/

namespace Shikiji

/-! ## Style Metadata Codec (spec §4.1)

Modelled from the spec: the codec implementation (`core/stackElementMetadata`)
is not under the provided sources; only the `FontStyle` type is referenced from
`types.ts`.  The spec gives `encode(fontStyle, colorIndex, bgColorIndex) -> uint32`
with `fontStyle` a bitmask over `{None=0, Italic=1, Bold=2, Underline=4,
Strikethrough=8}` (so `fontStyle ∈ [0,15]`, four bits) and the two colour
indices non-negative integers; a valid input is one whose fields fit the packed
32-bit layout: four bits of font style and fourteen bits for each colour index. -/

structure StyleMetadata where
  fontStyle : Nat
  colorIndex : Nat
  bgColorIndex : Nat
deriving DecidableEq, Repr

/-- Modelled from the spec: packs font style (4 bits), colour index (14 bits)
and background index (14 bits) into a 32-bit integer. -/
def encode (fontStyle colorIndex bgColorIndex : Nat) : Nat :=
  (fontStyle + colorIndex * 16 + bgColorIndex * 2 ^ 18) % 2 ^ 32

/-- Modelled from the spec: unpacks the integer produced by `encode`. -/
def decode (n : Nat) : StyleMetadata :=
  { fontStyle := n % 16
    colorIndex := n / 16 % 2 ^ 14
    bgColorIndex := n / 2 ^ 18 }

/-! ## Multi-Theme Compositor (spec §4.4)

Modelled from the spec: the compositor implementation is not under the provided
sources.  The spec's algorithm — boundary reconciliation via a shared cursor —
is rendered as a recursion over the per-theme token streams: at each step the
cut point is the minimum current-token end offset across all themes, one merged
token is emitted for the interval up to the cut, and every theme whose current
token ends exactly at the cut advances to its next token.  Zero-length spans
are skipped, and a total-length disagreement between themes raises
`ThemeLengthMismatch` instead of producing output. -/

structure ColoredToken where
  content : List Char
  colorIndex : Nat
  bgColorIndex : Nat
  fontStyle : Nat
deriving DecidableEq, Repr

structure ThemeStyle where
  colorIndex : Nat
  bgColorIndex : Nat
  fontStyle : Nat
deriving DecidableEq, Repr

instance : Inhabited ThemeStyle := ⟨⟨0, 0, 0⟩⟩

structure MergedToken where
  content : List Char
  styles : List ThemeStyle
deriving DecidableEq, Repr

inductive CompositorError where
  | themeLengthMismatch
deriving DecidableEq, Repr

/-- Total number of characters covered by a theme's token stream
(the running-length bookkeeping of spec §7). -/
def totalLen (s : List ColoredToken) : Nat :=
  (s.map (fun t => t.content.length)).sum

/-- Modelled from the spec: zero-width tokens are skipped, treated as already
consumed. -/
def skipEmpty (s : List ColoredToken) : List ColoredToken :=
  s.filter (fun t => !t.content.isEmpty)

/-- End offset (relative to the shared cursor) of a theme's current token. -/
def headLen (s : List ColoredToken) : Nat :=
  match s with
  | [] => 0
  | t :: _ => t.content.length

/-- Style triple of a theme's current token. -/
def headStyle (s : List ColoredToken) : ThemeStyle :=
  match s with
  | [] => default
  | t :: _ => ⟨t.colorIndex, t.bgColorIndex, t.fontStyle⟩

/-- The globally nearest next boundary: the minimum current-token end offset
across all themes (spec §4.4 step 2). -/
def minCut (streams : List (List ColoredToken)) : Nat :=
  match streams with
  | [] => 0
  | [s] => headLen s
  | s :: rest => min (headLen s) (minCut rest)

/-- Advance one theme past the cut point: a token ending exactly at the cut is
retired, otherwise its consumed prefix is sliced off. -/
def advance (cut : Nat) (s : List ColoredToken) : List ColoredToken :=
  match s with
  | [] => []
  | t :: rest =>
    if t.content.length ≤ cut then rest
    else { t with content := t.content.drop cut } :: rest

/-- The compositor's shared-cursor loop.  `fuel` is a structural bound on the
number of steps; `composite` supplies one more than the total line length,
which the linearity invariant (each step consumes at least one character)
shows to be sufficient. -/
def compositeGo : Nat → List (List ColoredToken) → List MergedToken
  | 0, _ => []
  | _ + 1, [] => []
  | fuel + 1, (t :: s₀) :: rest =>
    let streams := (t :: s₀) :: rest
    let cut := minCut streams
    { content := t.content.take cut, styles := streams.map headStyle } ::
      compositeGo fuel (streams.map (advance cut))
  | _ + 1, [] :: _ => []

/-- Modelled from the spec: `composite(perThemeLines) -> MergedToken[]`.
Fails fast with `ThemeLengthMismatch` when the per-theme streams disagree on
total covered length; otherwise skips zero-length spans and runs the
shared-cursor merge. -/
def composite (streams : List (List ColoredToken)) :
    Except CompositorError (List MergedToken) :=
  match streams with
  | [] => .ok []
  | s₀ :: rest =>
    if (s₀ :: rest).all (fun s => totalLen s = totalLen s₀) then
      .ok (compositeGo (totalLen s₀ + 1) ((s₀ :: rest).map skipEmpty))
    else
      .error .themeLengthMismatch

/-- The line covered by a token stream: the concatenation of its contents. -/
def lineOf (s : List ColoredToken) : List Char :=
  (s.map (fun t => t.content)).flatten

/-- The style a theme's own tokenization assigns to character position `p`. -/
def styleAt : List ColoredToken → Nat → ThemeStyle
  | [], _ => default
  | t :: rest, p =>
    if p < t.content.length then ⟨t.colorIndex, t.bgColorIndex, t.fontStyle⟩
    else styleAt rest (p - t.content.length)

/-- The style the merged stream attributes to theme `i` at position `p`. -/
def mergedStyleAt : List MergedToken → Nat → Nat → ThemeStyle
  | [], _, _ => default
  | m :: rest, i, p =>
    if p < m.content.length then m.styles.getD i default
    else mergedStyleAt rest i (p - m.content.length)

/-! ### Helper lemmas for the compositor -/

lemma totalLen_eq_length_lineOf (s : List ColoredToken) :
    totalLen s = (lineOf s).length := by
  induction s with
  | nil => rfl
  | cons t rest ih =>
    simp [totalLen, lineOf, List.length_append] at *
    omega

lemma lineOf_skipEmpty (s : List ColoredToken) :
    lineOf (skipEmpty s) = lineOf s := by
  induction s with
  | nil => rfl
  | cons t rest ih =>
    by_cases h : t.content.isEmpty
    · have : t.content = [] := by
        cases hc : t.content
        · rfl
        · rw [hc] at h; simp [List.isEmpty] at h
      simp [skipEmpty, lineOf, h, this] at *
      exact ih
    · simp [skipEmpty, lineOf, h] at *
      exact ih

lemma totalLen_skipEmpty (s : List ColoredToken) :
    totalLen (skipEmpty s) = totalLen s := by
  rw [totalLen_eq_length_lineOf, totalLen_eq_length_lineOf, lineOf_skipEmpty]

lemma skipEmpty_tokens_ne (s : List ColoredToken) :
    ∀ t ∈ skipEmpty s, t.content ≠ [] := by
  intro t ht
  have := List.of_mem_filter ht
  intro hc
  rw [hc] at this
  simp at this

lemma skipEmpty_idem (s : List ColoredToken) :
    skipEmpty (skipEmpty s) = skipEmpty s := by
  simp [skipEmpty, List.filter_filter]

lemma headLen_le_length_lineOf (s : List ColoredToken) :
    headLen s ≤ (lineOf s).length := by
  cases s with
  | nil => simp [headLen]
  | cons t rest => simp [headLen, lineOf]

lemma minCut_le_headLen (streams : List (List ColoredToken)) :
    ∀ s ∈ streams, minCut streams ≤ headLen s := by
  induction streams with
  | nil => intro s hs; cases hs
  | cons a rest ih =>
    intro s hs
    rcases List.mem_cons.mp hs with h | h
    · subst h
      cases rest with
      | nil => simp [minCut]
      | cons b rest' =>
        have he : minCut (s :: b :: rest') = min (headLen s) (minCut (b :: rest')) := rfl
        rw [he]
        exact min_le_left _ _
    · cases rest with
      | nil => cases h
      | cons b rest' =>
        have he : minCut (a :: b :: rest') = min (headLen a) (minCut (b :: rest')) := rfl
        rw [he]
        exact le_trans (min_le_right _ _) (ih s h)

lemma one_le_minCut (streams : List (List ColoredToken))
    (hne : streams ≠ []) (h : ∀ s ∈ streams, 1 ≤ headLen s) :
    1 ≤ minCut streams := by
  induction streams with
  | nil => exact absurd rfl hne
  | cons a rest ih =>
    cases rest with
    | nil => simpa [minCut] using h a (by simp)
    | cons b rest' =>
      have h1 : 1 ≤ headLen a := h a (by simp)
      have h2 : 1 ≤ minCut (b :: rest') := by
        refine ih (by simp) ?_
        intro s hs
        exact h s (List.mem_cons_of_mem _ hs)
      have he : minCut (a :: b :: rest') = min (headLen a) (minCut (b :: rest')) := rfl
      rw [he]
      exact le_min h1 h2

lemma one_le_headLen_of_wf (L : List Char) (s : List ColoredToken)
    (hL : lineOf s = L) (hts : ∀ t ∈ s, t.content ≠ []) (hLne : L ≠ []) :
    1 ≤ headLen s := by
  cases s with
  | nil => simp [lineOf] at hL; exact absurd hL hLne
  | cons t rest =>
    have ht := hts t (by simp)
    cases hc : t.content with
    | nil => exact absurd hc ht
    | cons c cs =>
      simp only [headLen, hc, List.length_cons]
      omega

lemma lineOf_advance (cut : Nat) (s : List ColoredToken)
    (h : cut ≤ headLen s) :
    lineOf (advance cut s) = (lineOf s).drop cut := by
  cases s with
  | nil =>
    simp [headLen] at h
    simp [advance, lineOf, h]
  | cons t rest =>
    simp only [headLen] at h
    by_cases hc : t.content.length ≤ cut
    · have hcut : cut = t.content.length := le_antisymm h hc
      simp only [advance, if_pos hc, lineOf, List.map_cons, List.flatten_cons]
      rw [hcut, List.drop_left]
    · simp only [advance, if_neg hc, lineOf, List.map_cons, List.flatten_cons]
      rw [List.drop_append_of_le_length h]

lemma advance_tokens_ne (cut : Nat) (s : List ColoredToken)
    (hts : ∀ t ∈ s, t.content ≠ []) (h : cut ≤ headLen s) :
    ∀ t ∈ advance cut s, t.content ≠ [] := by
  cases s with
  | nil => simp [advance]
  | cons t rest =>
    simp [headLen] at h
    by_cases hc : t.content.length ≤ cut
    · simp only [advance, if_pos hc]
      intro u hu
      exact hts u (by simp [hu])
    · simp only [advance, if_neg hc]
      intro u hu
      rcases List.mem_cons.mp hu with h1 | h1
      · subst h1
        simp only [ne_eq]
        intro hdrop
        have : t.content.length - cut = 0 := by
          simpa using congrArg List.length hdrop
        omega
      · exact hts u (by simp [h1])

lemma take_lineOf_head (cut : Nat) (t : ColoredToken) (rest : List ColoredToken)
    (h : cut ≤ t.content.length) :
    (lineOf (t :: rest)).take cut = t.content.take cut := by
  simp only [lineOf, List.map_cons, List.flatten_cons]
  rw [List.take_append_of_le_length h]

lemma styleAt_head (s : List ColoredToken) (p : Nat) (h : p < headLen s) :
    styleAt s p = headStyle s := by
  cases s with
  | nil => simp [headLen] at h
  | cons t rest =>
    simp [headLen] at h
    simp [styleAt, headStyle, h]

lemma styleAt_advance (cut : Nat) (s : List ColoredToken) (p : Nat)
    (hcut : cut ≤ headLen s) (hp : cut ≤ p) :
    styleAt (advance cut s) (p - cut) = styleAt s p := by
  cases s with
  | nil => rfl
  | cons t rest =>
    simp only [headLen] at hcut
    by_cases hc : t.content.length ≤ cut
    · have hcut' : cut = t.content.length := le_antisymm hcut hc
      have hnp : ¬ p < t.content.length := by omega
      simp only [advance, if_pos hc, styleAt, if_neg hnp]
      rw [hcut']
    · simp only [advance, if_neg hc, styleAt]
      by_cases hpt : p < t.content.length
      · have h1 : p - cut < (t.content.drop cut).length := by
          simp only [List.length_drop]; omega
        rw [if_pos h1, if_pos hpt]
      · have h1 : ¬ p - cut < (t.content.drop cut).length := by
          simp only [List.length_drop]; omega
        rw [if_neg h1, if_neg hpt]
        simp only [List.length_drop]
        congr 1
        omega

lemma styleAt_skipEmpty (s : List ColoredToken) (p : Nat) :
    styleAt (skipEmpty s) p = styleAt s p := by
  induction s generalizing p with
  | nil => rfl
  | cons t rest ih =>
    by_cases h : t.content.isEmpty
    · have hc : t.content = [] := by
        cases hc : t.content
        · rfl
        · rw [hc] at h; simp [List.isEmpty] at h
      simp [skipEmpty, h, styleAt, hc] at *
      exact ih p
    · simp [skipEmpty, h] at *
      by_cases hp : p < t.content.length
      · simp [styleAt, hp]
      · simp [styleAt, hp]
        exact ih _

/-- Well-formed compositor state: every stream covers the same line `L` and
contains no zero-width tokens. -/
def WFStreams (L : List Char) (streams : List (List ColoredToken)) : Prop :=
  ∀ s ∈ streams, lineOf s = L ∧ ∀ t ∈ s, t.content ≠ []

lemma wf_stream_nil (L : List Char) (streams : List (List ColoredToken))
    (hwf : WFStreams L streams) (hL : L = []) :
    ∀ s ∈ streams, s = [] := by
  intro s hs
  obtain ⟨h1, h2⟩ := hwf s hs
  cases s with
  | nil => rfl
  | cons t rest =>
    exfalso
    subst hL
    simp only [lineOf, List.map_cons, List.flatten_cons,
      List.append_eq_nil] at h1
    exact h2 t (by simp) h1.1

lemma compositeGo_spec (fuel : Nat) :
    ∀ (L : List Char) (streams : List (List ColoredToken)),
      L.length ≤ fuel → streams ≠ [] → WFStreams L streams →
      ((compositeGo fuel streams).map MergedToken.content).flatten = L ∧
      ∀ m ∈ compositeGo fuel streams, m.content ≠ [] := by
  induction fuel with
  | zero =>
    intro L streams hfuel hne hwf
    have hL : L = [] := List.length_eq_zero.mp (Nat.le_zero.mp hfuel)
    exact ⟨by simp [compositeGo, hL], by intro m hm; simp [compositeGo] at hm⟩
  | succ fuel ih =>
    intro L streams hfuel hne hwf
    by_cases hL : L = []
    · have hstreams := wf_stream_nil L streams hwf hL
      cases streams with
      | nil => exact absurd rfl hne
      | cons s₀ rest =>
        have h0 : s₀ = [] := hstreams s₀ (by simp)
        subst h0 hL
        exact ⟨by simp [compositeGo], by intro m hm; simp [compositeGo] at hm⟩
    · cases streams with
      | nil => exact absurd rfl hne
      | cons s₀ rest =>
        cases s₀ with
        | nil =>
          exfalso
          have := (hwf [] (by simp)).1
          simp [lineOf] at this
          exact hL this
        | cons t s₀' =>
          set cut := minCut ((t :: s₀') :: rest) with hcutdef
          have hunfold : compositeGo (fuel + 1) ((t :: s₀') :: rest) =
              { content := t.content.take cut,
                styles := ((t :: s₀') :: rest).map headStyle } ::
              compositeGo fuel
                (((t :: s₀') :: rest).map (advance cut)) := rfl
          have hwf0 := hwf (t :: s₀') (by simp)
          have hhead : ∀ s ∈ (t :: s₀') :: rest, 1 ≤ headLen s := by
            intro s hs
            exact one_le_headLen_of_wf L s (hwf s hs).1 (hwf s hs).2 hL
          have hcut1 : 1 ≤ cut :=
            one_le_minCut ((t :: s₀') :: rest) (by simp) hhead
          have hcutt : cut ≤ t.content.length := by
            have := minCut_le_headLen ((t :: s₀') :: rest) (t :: s₀') (by simp)
            simpa [headLen] using this
          have hcutL : cut ≤ L.length := by
            have h1 := headLen_le_length_lineOf (t :: s₀')
            rw [hwf0.1] at h1
            simp only [headLen] at h1
            omega
          have hwf' : WFStreams (L.drop cut)
              ((((t :: s₀') :: rest)).map (advance cut)) := by
            intro s' hs'
            obtain ⟨s, hs, rfl⟩ := List.mem_map.mp hs'
            obtain ⟨h1, h2⟩ := hwf s hs
            have hcl : cut ≤ headLen s := minCut_le_headLen _ s hs
            exact ⟨by rw [lineOf_advance cut s hcl, h1],
              advance_tokens_ne cut s h2 hcl⟩
          have hcontent : t.content.take cut = L.take cut := by
            have h1 := take_lineOf_head cut t s₀' hcutt
            rw [hwf0.1] at h1
            exact h1.symm
          have hih := ih (L.drop cut) ((((t :: s₀') :: rest)).map (advance cut))
            (by simp only [List.length_drop]; omega) (by simp) hwf'
          constructor
          · rw [hunfold]
            simp only [List.map_cons, List.flatten_cons]
            rw [hcontent]
            have hih1 := hih.1
            simp only [List.map_cons] at hih1
            rw [hih1, List.take_append_drop]
          · intro m hm
            rw [hunfold] at hm
            rcases List.mem_cons.mp hm with h | h
            · subst h
              simp only [ne_eq]
              intro hc
              have hlen := congrArg List.length hc
              have htne : 0 < t.content.length :=
                List.length_pos.mpr (hwf0.2 t (by simp))
              simp only [List.length_take, List.length_nil] at hlen
              omega
            · exact hih.2 m h

lemma compositeGo_styleAt (fuel : Nat) :
    ∀ (L : List Char) (streams : List (List ColoredToken)),
      L.length ≤ fuel → streams ≠ [] → WFStreams L streams →
      ∀ (i : Nat) (hi : i < streams.length) (p : Nat), p < L.length →
        mergedStyleAt (compositeGo fuel streams) i p =
          styleAt streams[i] p := by
  induction fuel with
  | zero =>
    intro L streams hfuel hne hwf i hi p hp
    omega
  | succ fuel ih =>
    intro L streams hfuel hne hwf i hi p hp
    have hL : L ≠ [] := by
      intro h
      subst h
      simp at hp
    cases streams with
    | nil => exact absurd rfl hne
    | cons s₀ rest =>
      cases s₀ with
      | nil =>
        exfalso
        have := (hwf [] (by simp)).1
        simp [lineOf] at this
        exact hL this
      | cons t s₀' =>
        set cut := minCut ((t :: s₀') :: rest) with hcutdef
        have hunfold : compositeGo (fuel + 1) ((t :: s₀') :: rest) =
            { content := t.content.take cut,
              styles := ((t :: s₀') :: rest).map headStyle } ::
            compositeGo fuel
              (((t :: s₀') :: rest).map (advance cut)) := rfl
        have hwf0 := hwf (t :: s₀') (by simp)
        have hhead : ∀ s ∈ (t :: s₀') :: rest, 1 ≤ headLen s := by
          intro s hs
          exact one_le_headLen_of_wf L s (hwf s hs).1 (hwf s hs).2 hL
        have hcut1 : 1 ≤ cut :=
          one_le_minCut ((t :: s₀') :: rest) (by simp) hhead
        have hcutt : cut ≤ t.content.length := by
          have := minCut_le_headLen ((t :: s₀') :: rest) (t :: s₀') (by simp)
          simpa [headLen] using this
        have hcutL : cut ≤ L.length := by
          have h1 := headLen_le_length_lineOf (t :: s₀')
          rw [hwf0.1] at h1
          simp only [headLen] at h1
          omega
        have hlen : (t.content.take cut).length = cut := by
          simp only [List.length_take]
          omega
        have hwf' : WFStreams (L.drop cut)
            ((((t :: s₀') :: rest)).map (advance cut)) := by
          intro s' hs'
          obtain ⟨s, hs, rfl⟩ := List.mem_map.mp hs'
          obtain ⟨h1, h2⟩ := hwf s hs
          have hcl : cut ≤ headLen s := minCut_le_headLen _ s hs
          exact ⟨by rw [lineOf_advance cut s hcl, h1],
            advance_tokens_ne cut s h2 hcl⟩
        have hcuts : cut ≤ headLen ((t :: s₀') :: rest)[i] :=
          minCut_le_headLen _ _ (List.getElem_mem hi)
        rw [hunfold]
        by_cases hpc : p < cut
        · rw [mergedStyleAt, if_pos (by rw [hlen]; exact hpc)]
          have hstyles : (((t :: s₀') :: rest).map headStyle).getD i default =
              headStyle ((t :: s₀') :: rest)[i] := by
            rw [List.getD_eq_getElem _ _ (by simpa using hi)]
            rw [List.getElem_map]
          rw [hstyles]
          rw [styleAt_head _ p (lt_of_lt_of_le hpc hcuts)]
        · rw [mergedStyleAt, if_neg (by rw [hlen]; exact hpc)]
          rw [hlen]
          have hih := ih (L.drop cut) ((((t :: s₀') :: rest)).map (advance cut))
            (by simp only [List.length_drop]; omega) (by simp) hwf'
            i (by simpa using hi) (p - cut)
            (by simp only [List.length_drop]; omega)
          rw [hih]
          simp only [List.getElem_map]
          exact styleAt_advance cut _ p hcuts (by omega)

lemma composite_ok (L : List Char) (s₀ : List ColoredToken)
    (rest : List (List ColoredToken))
    (hL : ∀ s ∈ s₀ :: rest, lineOf s = L) :
    composite (s₀ :: rest) =
      Except.ok (compositeGo (totalLen s₀ + 1) ((s₀ :: rest).map skipEmpty)) := by
  have hall : ((s₀ :: rest).all (fun s => totalLen s = totalLen s₀)) = true := by
    rw [List.all_eq_true]
    intro s hs
    simp only [decide_eq_true_eq]
    rw [totalLen_eq_length_lineOf, totalLen_eq_length_lineOf,
      hL s hs, hL s₀ (by simp)]
  simp [composite, hall]

lemma wf_map_skipEmpty (L : List Char) (streams : List (List ColoredToken))
    (hL : ∀ s ∈ streams, lineOf s = L) :
    WFStreams L (streams.map skipEmpty) := by
  intro s' hs'
  obtain ⟨s, hs, rfl⟩ := List.mem_map.mp hs'
  exact ⟨by rw [lineOf_skipEmpty, hL s hs], skipEmpty_tokens_ne s⟩

/-! ### Concrete sample inputs used by the witnesses -/

/-- A light-theme tokenization of the line `abcde`, split as `abc|de`. -/
def sampleLight : List ColoredToken :=
  [⟨"abc".toList, 1, 0, 0⟩, ⟨"de".toList, 2, 0, 0⟩]

/-- A dark-theme tokenization of the same line, split as `ab|cde`. -/
def sampleDark : List ColoredToken :=
  [⟨"ab".toList, 3, 0, 0⟩, ⟨"cde".toList, 4, 0, 0⟩]

/-- The two per-theme streams handed to the compositor. -/
def sampleStreams : List (List ColoredToken) := [sampleLight, sampleDark]

/-- The light-theme stream with a zero-width token inserted. -/
def sampleLightZW : List ColoredToken :=
  [⟨"abc".toList, 1, 0, 0⟩, ⟨[], 9, 9, 9⟩, ⟨"de".toList, 2, 0, 0⟩]

/-- The merged-token stream the compositor produces for `sampleStreams`. -/
def sampleMerged : List MergedToken :=
  [⟨"ab".toList, [⟨1, 0, 0⟩, ⟨3, 0, 0⟩]⟩,
   ⟨"c".toList, [⟨1, 0, 0⟩, ⟨4, 0, 0⟩]⟩,
   ⟨"de".toList, [⟨2, 0, 0⟩, ⟨4, 0, 0⟩]⟩]

/-! ### Claim theorems for the compositor -/

/-- C1: for every source line and every non-empty set of per-theme
colored-token sequences derived from that line, the concatenation of the
contents of all merged tokens produced by `composite` equals the original
line text exactly — no characters gained, lost, or reordered. -/
theorem composite_preserves_content (L : List Char)
    (streams : List (List ColoredToken))
    (hne : streams ≠ []) (hL : ∀ s ∈ streams, lineOf s = L) :
    ∃ ms, composite streams = Except.ok ms ∧
      (ms.map MergedToken.content).flatten = L := by
  cases streams with
  | nil => exact absurd rfl hne
  | cons s₀ rest =>
    refine ⟨_, composite_ok L s₀ rest hL, ?_⟩
    have hwf := wf_map_skipEmpty L (s₀ :: rest) hL
    have hfuel : L.length ≤ totalLen s₀ + 1 := by
      rw [totalLen_eq_length_lineOf, hL s₀ (by simp)]
      omega
    exact (compositeGo_spec (totalLen s₀ + 1) L ((s₀ :: rest).map skipEmpty)
      hfuel (by simp) hwf).1

theorem composite_preserves_content_witness :
    ∃ ms, composite sampleStreams = Except.ok ms ∧
      (ms.map MergedToken.content).flatten = "abcde".toList :=
  composite_preserves_content "abcde".toList sampleStreams
    (by decide) (by decide)

/-- C2: for every theme `i` among the compositor's inputs and every character
position `p` within the line, the merged token whose span covers `p` carries
for theme `i` exactly the style triple that theme `i`'s own single-theme
tokenization assigns to `p`; and the compositor's cut is the minimum
current-token end offset across all themes (witnessed by the first emitted
merged token). -/
theorem composite_boundary_property (L : List Char)
    (streams : List (List ColoredToken)) (ms : List MergedToken)
    (hne : streams ≠ []) (hL : ∀ s ∈ streams, lineOf s = L)
    (hok : composite streams = Except.ok ms) :
    (∀ i, i < streams.length → ∀ p, p < L.length →
        mergedStyleAt ms i p = styleAt (streams.getD i []) p) ∧
    (L ≠ [] → ∃ m ms', ms = m :: ms' ∧
        m.content.length = minCut (streams.map skipEmpty)) := by
  cases streams with
  | nil => exact absurd rfl hne
  | cons s₀ rest =>
    rw [composite_ok L s₀ rest hL] at hok
    have hms : compositeGo (totalLen s₀ + 1) ((s₀ :: rest).map skipEmpty) = ms := by
      injection hok
    have hwf := wf_map_skipEmpty L (s₀ :: rest) hL
    have hfuel : L.length ≤ totalLen s₀ + 1 := by
      rw [totalLen_eq_length_lineOf, hL s₀ (by simp)]
      omega
    constructor
    · intro i hi p hp
      rw [← hms]
      have h1 := compositeGo_styleAt (totalLen s₀ + 1) L
        ((s₀ :: rest).map skipEmpty) hfuel (by simp) hwf
        i (by simpa using hi) p hp
      rw [h1]
      simp only [List.getElem_map]
      rw [styleAt_skipEmpty]
      rw [List.getD_eq_getElem _ _ hi]
    · intro hLne
      rw [← hms]
      cases hsk : skipEmpty s₀ with
      | nil =>
        exfalso
        have h1 : lineOf (skipEmpty s₀) = L := by
          rw [lineOf_skipEmpty]
          exact hL s₀ (by simp)
        rw [hsk] at h1
        simp [lineOf] at h1
        exact hLne h1
      | cons t s' =>
        have hmap : (s₀ :: rest).map skipEmpty =
            (t :: s') :: rest.map skipEmpty := by
          simp [hsk]
        rw [hmap]
        refine ⟨_, _, rfl, ?_⟩
        have hcutt : minCut ((t :: s') :: rest.map skipEmpty) ≤
            t.content.length := by
          have := minCut_le_headLen ((t :: s') :: rest.map skipEmpty)
            (t :: s') (by simp)
          simpa [headLen] using this
        simp only [List.length_take]
        omega

theorem composite_boundary_property_witness :
    mergedStyleAt sampleMerged 1 2 = styleAt (sampleStreams.getD 1 []) 2 ∧
    (∃ m ms', sampleMerged = m :: ms' ∧
      m.content.length = minCut (sampleStreams.map skipEmpty)) :=
  ⟨(composite_boundary_property "abcde".toList sampleStreams sampleMerged
      (by decide) (by decide) (by rfl)).1 1 (by decide) 2 (by decide),
   (composite_boundary_property "abcde".toList sampleStreams sampleMerged
      (by decide) (by decide) (by rfl)).2 (by decide)⟩

/-- C4: whenever the per-theme streams given to the compositor disagree on the
total length of text they cover, `composite` returns the
`ThemeLengthMismatch` error rather than any merged-token sequence. -/
theorem composite_length_mismatch (streams : List (List ColoredToken))
    (s₁ s₂ : List ColoredToken) (h₁ : s₁ ∈ streams) (h₂ : s₂ ∈ streams)
    (hmm : totalLen s₁ ≠ totalLen s₂) :
    composite streams = Except.error CompositorError.themeLengthMismatch := by
  cases streams with
  | nil => cases h₁
  | cons s₀ rest =>
    have hnall : ¬ ((s₀ :: rest).all (fun s => totalLen s = totalLen s₀) = true) := by
      rw [List.all_eq_true]
      intro hall
      have e1 := hall s₁ h₁
      have e2 := hall s₂ h₂
      simp only [decide_eq_true_eq] at e1 e2
      exact hmm (e1.trans e2.symm)
    simp [composite, hnall]

theorem composite_length_mismatch_witness :
    composite [[⟨"ab".toList, 1, 0, 0⟩], [⟨"a".toList, 1, 0, 0⟩]] =
      Except.error CompositorError.themeLengthMismatch :=
  composite_length_mismatch _ [⟨"ab".toList, 1, 0, 0⟩] [⟨"a".toList, 1, 0, 0⟩]
    (by decide) (by decide) (by decide)

/-- C5: every merged token produced by `composite` has non-empty content, and
zero-length input spans are skipped: the compositor's output on any stream set
is the same as on the streams with their zero-length spans removed. -/
theorem composite_no_zero_width (L : List Char)
    (streams : List (List ColoredToken))
    (hne : streams ≠ []) (hL : ∀ s ∈ streams, lineOf s = L) :
    composite streams = composite (streams.map skipEmpty) ∧
    ∀ ms, composite streams = Except.ok ms → ∀ m ∈ ms, m.content ≠ [] := by
  cases streams with
  | nil => exact absurd rfl hne
  | cons s₀ rest =>
    have hL' : ∀ s ∈ skipEmpty s₀ :: rest.map skipEmpty, lineOf s = L := by
      intro s hs
      rcases List.mem_cons.mp hs with h | h
      · subst h
        rw [lineOf_skipEmpty]
        exact hL s₀ (by simp)
      · obtain ⟨u, hu, rfl⟩ := List.mem_map.mp h
        rw [lineOf_skipEmpty]
        exact hL u (by simp [hu])
    constructor
    · rw [composite_ok L s₀ rest hL]
      have h2 : (s₀ :: rest).map skipEmpty = skipEmpty s₀ :: rest.map skipEmpty := by
        simp
      rw [h2, composite_ok L (skipEmpty s₀) (rest.map skipEmpty) hL']
      rw [totalLen_skipEmpty]
      have h3 : (skipEmpty s₀ :: rest.map skipEmpty).map skipEmpty =
          skipEmpty s₀ :: rest.map skipEmpty := by
        simp [skipEmpty_idem, List.map_map]
      rw [h3]
    · intro ms hok
      rw [composite_ok L s₀ rest hL] at hok
      have hms : compositeGo (totalLen s₀ + 1) ((s₀ :: rest).map skipEmpty) = ms := by
        injection hok
      rw [← hms]
      have hwf := wf_map_skipEmpty L (s₀ :: rest) hL
      have hfuel : L.length ≤ totalLen s₀ + 1 := by
        rw [totalLen_eq_length_lineOf, hL s₀ (by simp)]
        omega
      exact (compositeGo_spec (totalLen s₀ + 1) L ((s₀ :: rest).map skipEmpty)
        hfuel (by simp) hwf).2

theorem composite_no_zero_width_witness :
    composite [sampleLightZW, sampleDark] =
      composite ([sampleLightZW, sampleDark].map skipEmpty) ∧
    (⟨"ab".toList, [⟨1, 0, 0⟩, ⟨3, 0, 0⟩]⟩ : MergedToken).content ≠ [] :=
  ⟨(composite_no_zero_width "abcde".toList [sampleLightZW, sampleDark]
      (by decide) (by decide)).1,
   (composite_no_zero_width "abcde".toList [sampleLightZW, sampleDark]
      (by decide) (by decide)).2 sampleMerged (by rfl) _ (by decide)⟩

/-! ### Claim theorem for the codec -/

/-- C3: for every fontStyle in `[0,15]` and all valid colour indices — those
that fit the packed 32-bit layout — decoding an encoded value reproduces all
three inputs exactly. -/
theorem codec_round_trip (f c b : Nat) (hf : f < 16) (hc : c < 2 ^ 14)
    (hb : b < 2 ^ 14) :
    decode (encode f c b) = ⟨f, c, b⟩ := by
  unfold encode decode
  have h1 : f + c * 16 + b * 2 ^ 18 < 2 ^ 32 := by omega
  rw [Nat.mod_eq_of_lt h1]
  simp only [StyleMetadata.mk.injEq]
  refine ⟨?_, ?_, ?_⟩ <;> omega

theorem codec_round_trip_witness :
    decode (encode 5 300 7) = ⟨5, 300, 7⟩ :=
  codec_round_trip 5 300 7 (by decide) (by decide) (by decide)

/-! ## HTML/Structured Renderer (spec §4.5)

Modelled from the spec: the renderer implementation is not under the provided
sources; `types.ts` supplies its option and token types
(`HtmlRendererOptions`, `LineOption`, `ThemedToken`,
`CodeToDualThemesOptions`) whose documentation fixes the behaviour modelled
here. -/

/-- Mirrors `CodeToDualThemesOptions` of `types.ts`: `defaultColor` defaults
to `'light'` (`none` models the `false` setting) and `cssVariablePrefix`
defaults to `--shiki-`. -/
structure CodeToDualThemesOptions where
  defaultColor : Option String := some "light"
  cssVariablePrefix : String := "--shiki-"
deriving DecidableEq, Repr

/-- Modelled from the spec: per-token style entries of multi-theme rendering.
The theme designated by `defaultColor` has its colour written as the inline
`color` property; every other theme's colour becomes the custom property
named `cssVariablePrefix ++ themeKey`.  All entries of a token are placed
together (on one element), so placement is uniform across tokens. -/
def tokenStyleEntries (defaultColor : Option String)
    ( cssVariablePrefix : String) (themeColors : List (String × String)) :
    List (String × String) :=
  themeColors.map (fun tc =>
    if defaultColor = some tc.1 then ("color", tc.2)
    else ( cssVariablePrefix ++ tc.1, tc.2))

/-- C6: the `defaultColor` theme's colour is written as the inline `color`
style property; every other theme's colour is exposed only as a named custom
style property; with `defaultColor` disabled (`none`, modelling `false`)
no inline colour is written and every theme's colour is exposed only via
style variables.  The designated default is `'light'` unless overridden. -/
theorem defaultColor_assignment (defaultColor : Option String)
    ( cssVariablePrefix : String) (themeColors : List (String × String)) :
    (∀ tc ∈ themeColors, defaultColor = some tc.1 →
      ("color", tc.2) ∈ tokenStyleEntries defaultColor cssVariablePrefix themeColors) ∧
    (∀ tc ∈ themeColors, defaultColor ≠ some tc.1 →
      ( cssVariablePrefix ++ tc.1, tc.2) ∈
        tokenStyleEntries defaultColor cssVariablePrefix themeColors) ∧
    (defaultColor = none →
      tokenStyleEntries defaultColor cssVariablePrefix themeColors =
        themeColors.map (fun tc => ( cssVariablePrefix ++ tc.1, tc.2))) ∧
    ({} : CodeToDualThemesOptions).defaultColor = some "light" := by
  refine ⟨?_, ?_, ?_, rfl⟩
  · intro tc htc hd
    unfold tokenStyleEntries
    refine List.mem_map.mpr ⟨tc, htc, ?_⟩
    rw [if_pos hd]
  · intro tc htc hd
    unfold tokenStyleEntries
    refine List.mem_map.mpr ⟨tc, htc, ?_⟩
    rw [if_neg hd]
  · intro hd
    subst hd
    unfold tokenStyleEntries
    apply List.map_congr_left
    intro tc _
    rw [if_neg (by simp)]

theorem defaultColor_assignment_witness :
    ("color", "#111111") ∈ tokenStyleEntries (some "light") "--shiki-"
      [("light", "#111111"), ("dark", "#eeeeee")] ∧
    ("--shiki-" ++ "dark", "#eeeeee") ∈ tokenStyleEntries (some "light") "--shiki-"
      [("light", "#111111"), ("dark", "#eeeeee")] ∧
    tokenStyleEntries none "--shiki-" [("light", "#111111"), ("dark", "#eeeeee")] =
      [("light", "#111111"), ("dark", "#eeeeee")].map
        (fun tc => ("--shiki-" ++ tc.1, tc.2)) :=
  ⟨(defaultColor_assignment (some "light") "--shiki-"
      [("light", "#111111"), ("dark", "#eeeeee")]).1
      ("light", "#111111") (by decide) rfl,
   (defaultColor_assignment (some "light") "--shiki-"
      [("light", "#111111"), ("dark", "#eeeeee")]).2.1
      ("dark", "#eeeeee") (by decide) (by decide),
   (defaultColor_assignment none "--shiki-"
      [("light", "#111111"), ("dark", "#eeeeee")]).2.2.1 rfl⟩

/-- C9: each non-default theme contributes a custom style property whose name
is the concatenation of `cssVariablePrefix` (default `--shiki-`) and the
theme's key, holding that theme's colour; all of a token's entries live on
one element, so the placement is the same for every token. -/
theorem cssVariable_naming (defaultKey : String)
    ( cssVariablePrefix : String) (themeColors : List (String × String)) :
    (∀ tc ∈ themeColors, tc.1 ≠ defaultKey →
      ( cssVariablePrefix ++ tc.1, tc.2) ∈
        tokenStyleEntries (some defaultKey) cssVariablePrefix themeColors) ∧
    ({} : CodeToDualThemesOptions).cssVariablePrefix = "--shiki-" := by
  refine ⟨?_, rfl⟩
  intro tc htc hne
  unfold tokenStyleEntries
  refine List.mem_map.mpr ⟨tc, htc, ?_⟩
  rw [if_neg (by simp; intro h; exact absurd h.symm hne)]

theorem cssVariable_naming_witness :
    ("--shiki-" ++ "dark", "#eeeeee") ∈ tokenStyleEntries (some "light") "--shiki-"
      [("light", "#111111"), ("dark", "#eeeeee")] ∧
    ({} : CodeToDualThemesOptions).cssVariablePrefix = "--shiki-" :=
  ⟨(cssVariable_naming "light" "--shiki-"
      [("light", "#111111"), ("dark", "#eeeeee")]).1
      ("dark", "#eeeeee") (by decide) (by decide),
   (cssVariable_naming "light" "--shiki-"
      [("light", "#111111"), ("dark", "#eeeeee")]).2⟩

/-- Mirrors `LineOption` of `types.ts`: a 1-based line number with extra
classes.  The line number is modelled with `Int` so that out-of-range values
(including `0` and negatives) are representable. -/
structure LineOption where
  line : Int
  classes : List String := []
deriving DecidableEq, Repr

/-- Mirrors `HtmlRendererOptions` of `types.ts`; `mergeWhitespaces` defaults
to `true`. -/
structure HtmlRendererOptions where
  langId : Option String := none
  fg : Option String := none
  bg : Option String := none
  lineOptions : List LineOption := []
  themeName : Option String := none
  rootStyle : Option String := none
  mergeWhitespaces : Bool := true
deriving DecidableEq, Repr

instance : Inhabited MergedToken := ⟨⟨[], []⟩⟩

/-- Whitespace characters relevant inside a single line. -/
def isWhitespaceChar (c : Char) : Bool :=
  c = ' ' || c = '\t'

/-- Modelled from the spec: the renderer's whitespace merging — a token whose
content is entirely whitespace is absorbed into the FOLLOWING token (its
content accumulates in `carry` and is prepended to the next surviving token),
provided a following token exists; the surviving token's per-theme styles are
untouched. -/
def mergeWsGo (carry : List Char) : List MergedToken → List MergedToken
  | [] => []
  | [t] => [{ t with content := carry ++ t.content }]
  | t :: u :: rest =>
    if t.content.all isWhitespaceChar then
      mergeWsGo (carry ++ t.content) (u :: rest)
    else
      { t with content := carry ++ t.content } :: mergeWsGo [] (u :: rest)

/-- Modelled from the spec: the whitespace-merging pass applied to a line's
merged tokens when `HtmlRendererOptions.mergeWhitespaces` is enabled. -/
def mergeWhitespaceTokens (ts : List MergedToken) : List MergedToken :=
  mergeWsGo [] ts

lemma mergeWsGo_flatten (ts : List MergedToken) :
    ∀ carry, ts ≠ [] →
      ((mergeWsGo carry ts).map MergedToken.content).flatten =
        carry ++ (ts.map MergedToken.content).flatten := by
  induction ts with
  | nil => intro carry h; exact absurd rfl h
  | cons t rest ih =>
    intro carry _
    cases rest with
    | nil => simp [mergeWsGo]
    | cons u rest' =>
      simp only [mergeWsGo]
      by_cases hw : t.content.all isWhitespaceChar = true
      · rw [if_pos hw, ih _ (by simp)]
        simp
      · rw [if_neg hw]
        simp only [List.map_cons, List.flatten_cons]
        rw [ih [] (by simp)]
        simp

lemma mergeWsGo_styles (ts : List MergedToken) :
    ∀ carry, carry.all isWhitespaceChar = true →
      ∀ m ∈ mergeWsGo carry ts, ∃ t ∈ ts, m.styles = t.styles ∧
        ∃ pre, m.content = pre ++ t.content ∧ pre.all isWhitespaceChar = true := by
  induction ts with
  | nil => intro carry hc m hm; simp [mergeWsGo] at hm
  | cons t rest ih =>
    intro carry hc m hm
    cases rest with
    | nil =>
      simp only [mergeWsGo, List.mem_singleton] at hm
      subst hm
      exact ⟨t, by simp, rfl, carry, rfl, hc⟩
    | cons u rest' =>
      simp only [mergeWsGo] at hm
      by_cases hw : t.content.all isWhitespaceChar = true
      · rw [if_pos hw] at hm
        have hcarry' : (carry ++ t.content).all isWhitespaceChar = true := by
          rw [List.all_append, hc, hw]
          rfl
        obtain ⟨t', ht', hs, pre, hp, hpw⟩ := ih _ hcarry' m hm
        exact ⟨t', by simp [ht'], hs, pre, hp, hpw⟩
      · rw [if_neg hw] at hm
        rcases List.mem_cons.mp hm with h | h
        · subst h
          exact ⟨t, by simp, rfl, carry, rfl, hc⟩
        · obtain ⟨t', ht', hs, pre, hp, hpw⟩ := ih [] (by simp) m h
          exact ⟨t', by simp [ht'], hs, pre, hp, hpw⟩

lemma mergeWsGo_no_inner_ws (ts : List MergedToken) :
    ∀ carry i, i + 1 < (mergeWsGo carry ts).length →
      ((mergeWsGo carry ts).getD i default).content.all isWhitespaceChar ≠ true := by
  induction ts with
  | nil => intro carry i hi; simp [mergeWsGo] at hi
  | cons t rest ih =>
    intro carry i hi
    cases rest with
    | nil => simp [mergeWsGo] at hi
    | cons u rest' =>
      simp only [mergeWsGo] at hi ⊢
      by_cases hw : t.content.all isWhitespaceChar = true
      · rw [if_pos hw] at hi ⊢
        exact ih _ i hi
      · rw [if_neg hw] at hi ⊢
        cases i with
        | zero =>
          simp only [List.getD_cons_zero]
          rw [List.all_append]
          simp [hw]
        | succ j =>
          simp only [List.getD_cons_succ]
          simp only [List.length_cons] at hi
          exact ih [] j (by omega)

/-- C7: with `mergeWhitespaces` enabled (the `HtmlRendererOptions` default),
whitespace-only tokens are absorbed into the following token, never the
preceding one: the rendered text is unchanged, every surviving token keeps
its own per-theme styles and gains only a whitespace prefix collected from
the preceding whitespace-only tokens, and no whitespace-only token remains
in front of another token. -/
theorem mergeWhitespaces_preserves (ts : List MergedToken) :
    ((mergeWhitespaceTokens ts).map MergedToken.content).flatten =
      (ts.map MergedToken.content).flatten ∧
    (∀ m ∈ mergeWhitespaceTokens ts, ∃ t ∈ ts, m.styles = t.styles ∧
      ∃ pre, m.content = pre ++ t.content ∧ pre.all isWhitespaceChar = true) ∧
    (∀ i, i + 1 < (mergeWhitespaceTokens ts).length →
      ((mergeWhitespaceTokens ts).getD i default).content.all
        isWhitespaceChar ≠ true) ∧
    ({} : HtmlRendererOptions).mergeWhitespaces = true := by
  refine ⟨?_, ?_, ?_, rfl⟩
  · cases ts with
    | nil => rfl
    | cons t rest =>
      have h := mergeWsGo_flatten (t :: rest) [] (by simp)
      simpa [mergeWhitespaceTokens] using h
  · exact mergeWsGo_styles ts [] (by simp)
  · exact mergeWsGo_no_inner_ws ts []

/-- Modelled from the spec: the renderer computes the extra classes of the
1-based line `n` as the classes of the `lineOptions` entries whose `line`
equals `n`; the computation is total, so no entry can abort the render. -/
def classesForLine (lineOptions : List LineOption) (n : Nat) : List String :=
  ((lineOptions.filter (fun o => o.line = (n : Int))).map
    LineOption.classes).flatten

/-- C8: line numbers in `lineOptions` are 1-based; entries whose line number
lies outside `[1, lineCount]` (including `line ≤ 0`) are ignored without
aborting the render and without applying their classes to any line: for every
line number in range, dropping the out-of-range entries leaves the computed
classes unchanged.  In particular a `line := 0` entry never contributes its
classes to line 1. -/
theorem lineOptions_out_of_range_ignored (lineOptions : List LineOption)
    (lineCount n : Nat) (h1 : 1 ≤ n) (h2 : n ≤ lineCount) :
    classesForLine lineOptions n =
      classesForLine (lineOptions.filter
        (fun o => 1 ≤ o.line ∧ o.line ≤ (lineCount : Int))) n := by
  unfold classesForLine
  rw [List.filter_filter]
  congr 2
  apply List.filter_congr
  intro o _
  by_cases ho : o.line = (n : Int)
  · simp only [ho, decide_eq_true_eq]
    simp only [decide_eq_true_eq] at *
    have : (1 : Int) ≤ (n : Int) ∧ (n : Int) ≤ (lineCount : Int) := by
      constructor <;> omega
    simp [this]
  · simp [ho]

theorem lineOptions_out_of_range_ignored_witness :
    classesForLine [{ line := 0, classes := ["x"] }] 1 =
      classesForLine ([{ line := 0, classes := ["x"] }].filter
        (fun o => 1 ≤ o.line ∧ o.line ≤ ((1 : Nat) : Int))) 1 ∧
    classesForLine [{ line := 0, classes := ["x"] }] 1 = [] :=
  ⟨lineOptions_out_of_range_ignored [{ line := 0, classes := ["x"] }] 1 1
      (by decide) (by decide),
   by decide⟩

/-- Mirrors `ThemedToken` of `types.ts`: content, resolved colour, optional
`htmlStyle` override and font style. -/
structure ThemedToken where
  content : String
  color : Option String := none
  htmlStyle : Option String := none
  fontStyle : Nat := 0
deriving DecidableEq, Repr

/-- Modelled from the spec: the doc comment of `ThemedToken.htmlStyle` in
`types.ts` — "Override with custom inline style for HTML renderer.  When
specified, `color` will be ignored." -/
def tokenInlineStyle (t : ThemedToken) : String :=
  match t.htmlStyle with
  | some s => s
  | none =>
    match t.color with
    | some c => "color:" ++ c
    | none => ""

/-- Modelled from the spec: the doc comment of
`HtmlRendererOptions.rootStyle` in `types.ts` — "Custom style string to be
applied to the root `<pre>` element.  When specified, `fg` and `bg` will be
ignored." -/
def rootElementStyle (o : HtmlRendererOptions) : String :=
  match o.rootStyle with
  | some s => s
  | none =>
    (match o.bg with
     | some b => "background-color:" ++ b ++ ";"
     | none => "") ++
    (match o.fg with
     | some f => "color:" ++ f
     | none => "")

/-- C10: when a token's `htmlStyle` is specified, the renderer uses it as the
token's inline style and ignores the `color` field entirely; when
`rootStyle` is specified, it is applied to the root element and the `fg` and
`bg` options are ignored. -/
theorem htmlStyle_rootStyle_override (s : String) (c c' : Option String)
    (fg bg fg' bg' : Option String) :
    tokenInlineStyle { content := "x", color := c, htmlStyle := some s } = s ∧
    tokenInlineStyle { content := "x", color := c, htmlStyle := some s } =
      tokenInlineStyle { content := "x", color := c', htmlStyle := some s } ∧
    rootElementStyle { rootStyle := some s, fg := fg, bg := bg } = s ∧
    rootElementStyle { rootStyle := some s, fg := fg, bg := bg } =
      rootElementStyle { rootStyle := some s, fg := fg', bg := bg' } :=
  ⟨rfl, rfl, rfl, rfl⟩

end Shikiji
